import Mathlib

/-!
Shallow embedding of the directory-size scanner and byte formatter of
src/vorta/utils.py: prepare_pattern, match, get_directory_size and
pretty_bytes, together with the pieces of the Python standard library they
rely on (posixpath.normpath, fnmatch.translate glob semantics, os.path.join,
os.walk).  Paths are modelled as strings over the POSIX separator.
-/

/-! ## Glob patterns

The source compiles a pattern with re.compile(fnmatch.translate(pattern)) and
tests it with pattern.match(path).  fnmatch.translate produces a regex of the
shape (?s:...)\Z, so re.match performs a full-string match.  We model the
compiled pattern as a token list and the matcher as a total function:
a star matches any run of characters (including the separator), a question
mark exactly one character, and a bracket expression a character class. -/

inductive ClsItem where
  | single (c : Char)
  | range (lo hi : Char)
deriving DecidableEq, Repr

inductive GlobTok where
  | lit (c : Char)
  | anyOne
  | star
  | cls (neg : Bool) (items : List ClsItem)
deriving DecidableEq, Repr

/-- Scan for the closing bracket of a character class, returning the class
body and the remaining input; none when the class is unterminated. -/
def scanToClose : List Char → Option (List Char × List Char)
  | [] => none
  | ']' :: rest => some ([], rest)
  | c :: rest => (scanToClose rest).map (fun p => (c :: p.1, p.2))

/-- Model of the bracket scan in fnmatch.translate: a leading bang and then a
leading closing bracket are treated as body characters before the scan for
the terminating bracket starts. -/
def findClose (s : List Char) : Option (List Char × List Char) :=
  match s with
  | '!' :: ']' :: rest => (scanToClose rest).map (fun p => ('!' :: ']' :: p.1, p.2))
  | '!' :: rest => (scanToClose rest).map (fun p => ('!' :: p.1, p.2))
  | ']' :: rest => (scanToClose rest).map (fun p => (']' :: p.1, p.2))
  | rest => scanToClose rest

/-- Parse a class body into single characters and ranges. -/
def parseItems : List Char → List ClsItem
  | [] => []
  | a :: '-' :: b :: rest => .range a b :: parseItems rest
  | a :: rest => .single a :: parseItems rest

/-- Build a class token from a class body; a leading bang negates. -/
def mkCls (body : List Char) : GlobTok :=
  match body with
  | '!' :: rest => .cls true (parseItems rest)
  | rest => .cls false (parseItems rest)

/-- Fuelled translation of a glob pattern string into tokens; every step
consumes at least one input character, so fuel larger than the input length
makes the fuel irrelevant. -/
def parseGlobF : ℕ → List Char → List GlobTok
  | 0, _ => []
  | _ + 1, [] => []
  | f + 1, c :: rest =>
    if c = '*' then .star :: parseGlobF f rest
    else if c = '?' then .anyOne :: parseGlobF f rest
    else if c = '[' then
      match findClose rest with
      | none => .lit '[' :: parseGlobF f rest
      | some (body, after) => mkCls body :: parseGlobF f after
    else .lit c :: parseGlobF f rest

/-- Model of fnmatch.translate. -/
def parseGlob (s : List Char) : List GlobTok := parseGlobF (s.length + 1) s

/-- Whether a character is inside a class. -/
def clsItemMatch (c : Char) : ClsItem → Bool
  | .single a => a == c
  | .range lo hi => decide (lo.toNat ≤ c.toNat) && decide (c.toNat ≤ hi.toNat)

/-- Class match, with negation for a bang class. -/
def clsMatch (neg : Bool) (items : List ClsItem) (c : Char) : Bool :=
  let m := items.any (clsItemMatch c)
  if neg then !m else m

/-- Fuelled full-string glob match.  Every recursive call decreases the sum
of the two list lengths, so fuel above that sum makes the fuel irrelevant
(tokMatchF_irrel below). -/
def tokMatchF : ℕ → List GlobTok → List Char → Bool
  | 0, _, _ => false
  | _ + 1, [], s => s.isEmpty
  | f + 1, .star :: ps, [] => tokMatchF f ps []
  | f + 1, .star :: ps, c :: s' => tokMatchF f ps (c :: s') || tokMatchF f (.star :: ps) s'
  | _ + 1, .anyOne :: _, [] => false
  | f + 1, .anyOne :: ps, _ :: s => tokMatchF f ps s
  | _ + 1, .cls _ _ :: _, [] => false
  | f + 1, .cls neg items :: ps, c :: s => clsMatch neg items c && tokMatchF f ps s
  | _ + 1, .lit _ :: _, [] => false
  | f + 1, .lit c :: ps, d :: s => (c == d) && tokMatchF f ps s

/-- Full anchored match of a compiled glob against a string. -/
def tokMatch (p : List GlobTok) (s : List Char) : Bool :=
  tokMatchF (p.length + s.length + 1) p s

/-! ## POSIX path helpers used by the source -/

/-- Python str.lstrip(os.path.sep). -/
def lstripSep (s : List Char) : List Char := s.dropWhile (fun c => c = '/')

/-- Python str.rstrip(os.path.sep). -/
def rstripSep (s : List Char) : List Char := (s.reverse.dropWhile (fun c => c = '/')).reverse

/-- Python str.endswith(os.path.sep). -/
def endsWithSep (s : List Char) : Bool := s.getLast? == some '/'

/-- Python str.split(os.path.sep): split on every separator, keeping empty
components. -/
def splitSep : List Char → List (List Char)
  | [] => [[]]
  | c :: rest =>
    if c = '/' then [] :: splitSep rest
    else
      match splitSep rest with
      | [] => [[c]]
      | r :: rs => (c :: r) :: rs

/-- Join components with single separators, the inverse of splitSep on
separator-free components. -/
def intercalateSep : List (List Char) → List Char
  | [] => []
  | [c] => c
  | c :: cs => c ++ '/' :: intercalateSep cs

/-- One step of the component folding inside posixpath.normpath. -/
def normStep (initialSlashes : ℕ) (acc : List (List Char)) (comp : List Char) :
    List (List Char) :=
  if comp = [] ∨ comp = ['.'] then acc
  else if comp ≠ ['.', '.'] ∨ (initialSlashes = 0 ∧ acc = []) ∨
      (acc ≠ [] ∧ acc.getLast? = some ['.', '.']) then
    acc ++ [comp]
  else if acc ≠ [] then acc.dropLast
  else acc

/-- The count of leading separators kept by posixpath.normpath: two for
exactly two leading separators, one for any other positive number. -/
def initialSlashesOf (p : List Char) : ℕ :=
  if p.take 1 = ['/'] then
    (if p.take 2 = ['/', '/'] ∧ p.take 3 ≠ ['/', '/', '/'] then 2 else 1)
  else 0

/-- Model of posixpath.normpath on character lists. -/
def normpathL (p : List Char) : List Char :=
  if p = [] then ['.']
  else
    let joined := List.replicate (initialSlashesOf p) '/' ++
      intercalateSep ((splitSep p).foldl (normStep (initialSlashesOf p)) [])
    if joined = [] then ['.'] else joined

/-- Model of os.path.normpath on strings. -/
def normpath (p : String) : String := ⟨normpathL p.data⟩

/-! ## prepare_pattern and match from the source -/

/-- Model of prepare_pattern in src/vorta/utils.py: a trailing separator
excludes the directory contents only, so the pattern becomes
normpath(p) + "/*/"; otherwise it becomes normpath(p) + "/*"; a leading
separator is stripped and the result compiled as an fnmatch pattern. -/
def prepare_pattern (pattern : String) : List GlobTok :=
  let p := pattern.data
  let p1 : List Char :=
    if endsWithSep p then rstripSep (normpathL p) ++ ['/', '*', '/']
    else normpathL p ++ ['/', '*']
  parseGlob (lstripSep p1)

/-- Model of match in src/vorta/utils.py: strip leading separators from the
candidate, append one separator, and test the anchored full match. -/
def matchPattern (pattern : List GlobTok) (path : String) : Bool :=
  tokMatch pattern (lstripSep path.data ++ ['/'])

/-- The exclusion test of get_directory_size: the loop over patterns with an
early break is a disjunction over the pattern list. -/
def anyMatch (cpats : List (List GlobTok)) (path : String) : Bool :=
  cpats.any (fun p => matchPattern p path)

/-! ## Filesystem model and the scan of get_directory_size

A directory is modelled as what os.walk(dir_path, topdown=True) reports for
it: the list of non-directory entries (file_names) and the list of
subdirectory entries (subdirectories), in listing order.  A symbolic link to
a file carries isLink; a symbolic link to a directory carries the isLink flag
on its subdirectory entry, since os.walk lists it but never descends into it
(followlinks defaults to False).  The result of os.stat is either inode,
device and size, or one of the error classes distinguished by the except clause
of the source. -/

inductive StatRes where
  | ok (ino dev size : ℕ)
  | notFound
  | permDenied
  | otherErr
deriving DecidableEq, Repr

structure FileEntry where
  name : String
  isLink : Bool
  stat : StatRes
deriving DecidableEq, Repr

mutual
inductive Dir where
  | mk (files : List FileEntry) (subdirs : SubdirList)
inductive SubdirList where
  | nil
  | cons (name : String) (isLink : Bool) (d : Dir) (rest : SubdirList)
end

/-- The mutable state of the scan loop: data_size_filtered, seen and
seen_filtered.  The Python sets are modelled as duplicate-free lists. -/
structure ScanState where
  dataSize : ℕ
  seen : List ℕ
  seenFiltered : List ℕ
deriving DecidableEq, Repr

/-- Python set.add: insert if absent. -/
def setAdd (n : ℕ) (l : List ℕ) : List ℕ := if n ∈ l then l else n :: l

/-- Model of os.path.join for two components. -/
def osJoin (a b : String) : String :=
  if b.data.take 1 = ['/'] then b
  else if a.data = [] ∨ a.data.getLast? = some '/' then ⟨a.data ++ b.data⟩
  else ⟨a.data ++ '/' :: b.data⟩

/-- The per-file body of the scan loop: skip symbolic links, test exclusion,
stat the file; count a not-yet-seen inode, silently skip a vanished or
inaccessible file, propagate any other stat error. -/
def processFile (cpats : List (List GlobTok)) (dirPath : String) (st : ScanState)
    (f : FileEntry) : Except Unit ScanState :=
  let filePath := osJoin dirPath f.name
  if f.isLink then .ok st
  else
    let isExcluded := anyMatch cpats filePath
    match f.stat with
    | .ok ino _dev size =>
      .ok <|
        if ino ∈ st.seen then st
        else
          { dataSize := if isExcluded then st.dataSize else st.dataSize + size
            seen := setAdd ino st.seen
            seenFiltered := if isExcluded then st.seenFiltered else setAdd ino st.seenFiltered }
    | .notFound => .ok st
    | .permDenied => .ok st
    | .otherErr => .error ()

/-- The loop over file_names of one directory. -/
def processFiles (cpats : List (List GlobTok)) (dirPath : String) :
    List FileEntry → ScanState → Except Unit ScanState
  | [], st => .ok st
  | f :: rest, st =>
    match processFile cpats dirPath st f with
    | .error e => .error e
    | .ok st' => processFiles cpats dirPath rest st'

mutual
/-- One os.walk step for a directory: when the directory path matches an
exclude pattern the whole subtree is pruned; otherwise its files are
processed and its subdirectories walked in order. -/
def walkDir (cpats : List (List GlobTok)) (dirPath : String) :
    Dir → ScanState → Except Unit ScanState
  | .mk files subdirs, st =>
    if anyMatch cpats dirPath then .ok st
    else
      match processFiles cpats dirPath files st with
      | .error e => .error e
      | .ok st' => walkSubdirs cpats dirPath subdirs st'
/-- Walk the subdirectory entries in order; a symbolic link to a directory is
listed but never followed. -/
def walkSubdirs (cpats : List (List GlobTok)) (dirPath : String) :
    SubdirList → ScanState → Except Unit ScanState
  | .nil, st => .ok st
  | .cons name isLink d rest, st =>
    if isLink then walkSubdirs cpats dirPath rest st
    else
      match walkDir cpats (osJoin dirPath name) d st with
      | .error e => .error e
      | .ok st' => walkSubdirs cpats dirPath rest st'
end

/-- Model of get_directory_size: compile the patterns, walk the tree from
dirPath, and return data_size_filtered and len(seen_filtered). -/
def get_directory_size (dirPath : String) (root : Dir) (exclude_patterns : List String) :
    Except Unit (ℕ × ℕ) :=
  let cpats := exclude_patterns.map prepare_pattern
  match walkDir cpats dirPath root ⟨0, [], []⟩ with
  | .error e => .error e
  | .ok st => .ok (st.dataSize, st.seenFiltered.length)

/-! ## pretty_bytes

The Python value passed to pretty_bytes is either an int or a float; any
other input also fails the isinstance check and is treated like the float
case.  The floats that arise in the function are produced from an int by
repeated division by 1000 or 1024 and by round, so every value is an exact
decimal fraction; a float is modelled as its exact value k / 10^p.  Rounding
is Python round: round half to even. -/

inductive PyNum where
  | int (z : ℤ)
  | dec (k : ℤ) (p : ℕ)
deriving DecidableEq, Repr

/-- Division of the running size by the power: by 1000 in metric mode, by
1024 otherwise; dividing k / 10^p by 1024 multiplies by 5^10 = 9765625 and
shifts the decimal exponent by 10. -/
def divByPower (x : PyNum) (metric : Bool) : PyNum :=
  match x with
  | .int z => if metric then .dec z 3 else .dec (z * 9765625) 10
  | .dec k p => if metric then .dec k (p + 3) else .dec (k * 9765625) (p + 10)

/-- Round half to even of the fraction a / b for positive b. -/
def halfEvenDiv (a : ℤ) (b : ℕ) : ℤ :=
  let q := a.fdiv b
  let r := a - q * b
  if 2 * r < (b : ℤ) then q
  else if (b : ℤ) < 2 * r then q + 1
  else if q % 2 = 0 then q else q + 1

/-- Python round(x, prec): an int is returned unchanged for nonnegative prec
and rounded to a multiple of a power of ten for negative prec; a float is
rounded half to even at prec decimal digits. -/
def pyRound (x : PyNum) (prec : ℤ) : PyNum :=
  match x with
  | .int z =>
    if 0 ≤ prec then .int z
    else .int (halfEvenDiv z (10 ^ (-prec).toNat) * (10 : ℤ) ^ (-prec).toNat)
  | .dec k p =>
    if (p : ℤ) ≤ prec then .dec k p
    else
      let shift : ℕ := ((p : ℤ) - prec).toNat
      let k' := halfEvenDiv k (10 ^ shift)
      if 0 ≤ prec then .dec k' prec.toNat
      else .dec (k' * (10 : ℤ) ^ (-prec).toNat) 0

/-- The loop guard comparison abs(round(size, precision)) >= power, exact on
the model. -/
def absGePow (x : PyNum) (power : ℕ) : Bool :=
  match x with
  | .int z => decide (power ≤ z.natAbs)
  | .dec k p => decide (power * 10 ^ p ≤ k.natAbs)

/-- The while loop of pretty_bytes, fuelled.  The guard requires
n + 1 < uLen, so the loop runs fewer than uLen times and fuel uLen is
enough to make the fuelled loop agree with the Python loop. -/
def scaleLoopF (metric : Bool) (prec : ℤ) (uLen : ℕ) : ℕ → PyNum → ℕ → PyNum × ℕ
  | 0, size, n => (size, n)
  | fuel + 1, size, n =>
    if absGePow (pyRound size prec) (if metric then 1000 else 1024) = true ∧ n + 1 < uLen then
      scaleLoopF metric prec uLen fuel (divByPower size metric) (n + 1)
    else (size, n)

/-- The unit table of pretty_bytes. -/
def unitsFor (metric : Bool) : List String :=
  if metric then ["", "K", "M", "G", "T", "P", "E", "Z", "Y"]
  else ["", "Ki", "Mi", "Gi", "Ti", "Pi", "Ei", "Zi", "Yi"]

/-- Drop trailing zero decimal digits, moving them out of the exponent. -/
def stripZeros : ℤ → ℕ → ℤ × ℕ
  | k, 0 => (k, 0)
  | k, p + 1 => if k % 10 = 0 then stripZeros (k / 10) p else (k, p + 1)

/-- Python repr of the float k / 10^p: shortest decimal digits, with at least
one digit after the point. -/
def fmtDec (k : ℤ) (p : ℕ) : String :=
  let s := stripZeros k p
  if s.2 = 0 then toString s.1 ++ ".0"
  else
    let a := s.1.natAbs
    let ip := a / 10 ^ s.2
    let fr := a % 10 ^ s.2
    let frs := toString fr
    let pad : List Char := List.replicate (s.2 - frs.length) '0'
    (if s.1 < 0 then "-" else "") ++ toString ip ++ "." ++ ⟨pad⟩ ++ frs

/-- Python str formatting of the rounded size: int formatting for an int,
float repr for a float. -/
def fmtNum : PyNum → String
  | .int z => toString z
  | .dec k p => fmtDec k p

/-- Model of pretty_bytes.  units[n] is modelled by an optional lookup whose
failure branch yields the string of the except handler. -/
def pretty_bytes (size : PyNum) (metric sign : Bool) (precision : ℤ) : String :=
  match size with
  | .dec _ _ => ""
  | .int z =>
    let pfx := if sign ∧ 0 < z then "+" else ""
    let units := unitsFor metric
    let r := scaleLoopF metric precision units.length units.length (.int z) 0
    match units[r.2]? with
    | some u => pfx ++ fmtNum (pyRound r.1 precision) ++ " " ++ u ++ "B"
    | none => "NaN"

/-! ## Definitions supporting the claims -/

/-- A path component with no separator characters. -/
def sepFree (c : List Char) : Prop := ∀ ch ∈ c, ch ≠ '/'

/-- A literal path component: nonempty, not the dot or dot-dot component, and
free of the separator and of every glob metacharacter, so that the pattern
built from such components names one directory. -/
@[reducible] def goodComp (c : List Char) : Prop :=
  c ≠ [] ∧ c ≠ ['.'] ∧ c ≠ ['.', '.'] ∧
    ∀ ch ∈ c, ch ≠ '/' ∧ ch ≠ '*' ∧ ch ≠ '?' ∧ ch ≠ '['

/-- Preservation relation between scan states: every seen inode stays seen,
and an inode that is seen but not counted stays uncounted. -/
def Pres (st st' : ScanState) : Prop :=
  (∀ i ∈ st.seen, i ∈ st'.seen) ∧
    (∀ i, i ∈ st.seen → i ∉ st.seenFiltered → i ∉ st'.seenFiltered)

/-- The tree of the worked example in the specification: root contains
a.txt of size 100 and a subdirectory b with c.txt of size 200 and d.txt of
size 50. -/
def c1Tree : Dir :=
  .mk [⟨"a.txt", false, .ok 1 1 100⟩]
    (.cons "b" false
      (.mk [⟨"c.txt", false, .ok 2 1 200⟩, ⟨"d.txt", false, .ok 3 1 50⟩] .nil) .nil)

/-- The hardlink example tree: a.txt and link_to_a.txt share inode 5 and
size 100. -/
def c3Tree : Dir :=
  .mk [⟨"a.txt", false, .ok 5 1 100⟩, ⟨"link_to_a.txt", false, .ok 5 1 100⟩] .nil

/-- A tree whose second file fails stat with an unexpected error class. -/
def c7Tree : Dir :=
  .mk [⟨"x", false, .ok 1 1 10⟩, ⟨"y", false, .otherErr⟩] .nil

/-- Two distinct files on different devices that share an inode number. -/
def c9Tree : Dir :=
  .mk [⟨"a", false, .ok 7 1 100⟩, ⟨"b", false, .ok 7 2 200⟩] .nil
theorem tokMatchF_irrel : ∀ (n m : ℕ) (p : List GlobTok) (s : List Char),
    p.length + s.length < n → p.length + s.length < m →
    tokMatchF n p s = tokMatchF m p s := by
  intro n
  induction n with
  | zero => intro m p s h; omega
  | succ k ih =>
    intro m p s hn hm
    cases m with
    | zero => omega
    | succ j =>
      match p, s with
      | [], s => rfl
      | .star :: ps, [] =>
        simp only [tokMatchF]
        apply ih <;> (simp [List.length] at hn hm ⊢; omega)
      | .star :: ps, c :: s' =>
        simp only [tokMatchF]
        have h1 : tokMatchF k ps (c :: s') = tokMatchF j ps (c :: s') := by
          apply ih <;> (simp [List.length] at hn hm ⊢; omega)
        have h2 : tokMatchF k (.star :: ps) s' = tokMatchF j (.star :: ps) s' := by
          apply ih <;> (simp [List.length] at hn hm ⊢; omega)
        rw [h1, h2]
      | .anyOne :: ps, [] => rfl
      | .anyOne :: ps, c :: s =>
        simp only [tokMatchF]
        apply ih <;> (simp [List.length] at hn hm ⊢; omega)
      | .cls neg items :: ps, [] => rfl
      | .cls neg items :: ps, c :: s =>
        simp only [tokMatchF]
        have h1 : tokMatchF k ps s = tokMatchF j ps s := by
          apply ih <;> (simp [List.length] at hn hm ⊢; omega)
        rw [h1]
      | .lit c :: ps, [] => rfl
      | .lit c :: ps, d :: s =>
        simp only [tokMatchF]
        have h1 : tokMatchF k ps s = tokMatchF j ps s := by
          apply ih <;> (simp [List.length] at hn hm ⊢; omega)
        rw [h1]

theorem tokMatch_eq_tokMatchF (f : ℕ) (p : List GlobTok) (s : List Char)
    (h : p.length + s.length < f) : tokMatchF f p s = tokMatch p s :=
  tokMatchF_irrel f (p.length + s.length + 1) p s h (by omega)

theorem tokMatch_nil (s : List Char) : tokMatch [] s = s.isEmpty := by
  cases s <;> rfl

theorem tokMatch_lit (c : Char) (ps : List GlobTok) (d : Char) (s : List Char) :
    tokMatch (.lit c :: ps) (d :: s) = ((c == d) && tokMatch ps s) := by
  show tokMatchF (ps.length + 1 + (s.length + 1) + 1) (.lit c :: ps) (d :: s) = _
  have : ps.length + 1 + (s.length + 1) + 1 = (ps.length + s.length + 1) + 1 + 1 := by omega
  rw [this]
  simp only [tokMatchF]
  rw [tokMatch_eq_tokMatchF _ _ _ (by omega)]

theorem tokMatch_lit_nil (c : Char) (ps : List GlobTok) :
    tokMatch (.lit c :: ps) [] = false := rfl

theorem tokMatch_star_nil (ps : List GlobTok) :
    tokMatch (.star :: ps) [] = tokMatch ps [] := by
  show tokMatchF (ps.length + 1 + 0 + 1) (.star :: ps) [] = _
  have : ps.length + 1 + 0 + 1 = (ps.length + 0) + 1 + 1 := by omega
  rw [this]
  simp only [tokMatchF]
  exact tokMatch_eq_tokMatchF _ _ _ (by simp only [List.length_nil]; omega)

theorem tokMatch_star_cons (ps : List GlobTok) (c : Char) (s : List Char) :
    tokMatch (.star :: ps) (c :: s) =
      (tokMatch ps (c :: s) || tokMatch (.star :: ps) s) := by
  show tokMatchF (ps.length + 1 + (s.length + 1) + 1) (.star :: ps) (c :: s) = _
  have : ps.length + 1 + (s.length + 1) + 1 = (ps.length + s.length + 1) + 1 + 1 := by omega
  rw [this]
  simp only [tokMatchF]
  rw [tokMatch_eq_tokMatchF _ _ _ (by simp only [List.length_cons]; omega),
    tokMatch_eq_tokMatchF _ _ _ (by simp only [List.length_cons]; omega)]

/-- Consuming a literal run at the front of pattern and string. -/
theorem tokMatch_lits (xs : List Char) (ts : List GlobTok) (s : List Char) :
    tokMatch (xs.map .lit ++ ts) (xs ++ s) = tokMatch ts s := by
  induction xs with
  | nil => rfl
  | cons x xs ih =>
    simp only [List.map_cons, List.cons_append]
    rw [tokMatch_lit, ih, beq_self_eq_true, Bool.true_and]

/-- A star followed by a literal separator accepts any string that ends with
the separator. -/
theorem tokMatch_star_slash (s : List Char) :
    tokMatch [.star, .lit '/'] (s ++ ['/']) = true := by
  induction s with
  | nil =>
    rw [List.nil_append, tokMatch_star_cons, tokMatch_lit, tokMatch_nil]
    rfl
  | cons c s ih =>
    rw [List.cons_append, tokMatch_star_cons, ih]
    simp

/-- A single trailing star accepts anything. -/
theorem tokMatch_star_any (s : List Char) : tokMatch [.star] s = true := by
  induction s with
  | nil => rfl
  | cons c s ih =>
    rw [tokMatch_star_cons, ih]
    simp


/-! ## Lemmas about the path helpers -/

theorem getLast?_mem {l : List Char} {a : Char} (h : l.getLast? = some a) : a ∈ l := by
  have hx : a ∈ l.getLast? := h ▸ rfl
  obtain ⟨hne, rfl⟩ := List.mem_getLast?_eq_getLast hx
  exact List.getLast_mem hne

theorem getLast?_append_ne {l m : List Char} (h : m ≠ []) :
    (l ++ m).getLast? = m.getLast? := by
  rw [List.getLast?_append]
  cases hm : m.getLast? with
  | none =>
    exfalso
    exact h (by simpa using hm)
  | some a => rfl

theorem lstripSep_cons_ne {a : Char} (t : List Char) (h : a ≠ '/') :
    lstripSep (a :: t) = a :: t := by
  simp [lstripSep, List.dropWhile_cons, h]

theorem endsWithSep_append {l m : List Char} (h : m ≠ []) :
    endsWithSep (l ++ m) = endsWithSep m := by
  unfold endsWithSep
  rw [getLast?_append_ne h]

theorem endsWithSep_append_slash (s : List Char) : endsWithSep (s ++ ['/']) = true := by
  rw [endsWithSep_append (by simp)]
  rfl

theorem rstripSep_eq_self {s : List Char} (h : endsWithSep s = false) :
    rstripSep s = s := by
  unfold rstripSep
  cases hs : s.reverse with
  | nil =>
    have : s = [] := by
      rw [← List.reverse_reverse s, hs]
      rfl
    rw [this]
    rfl
  | cons a t =>
    have hga : s.getLast? = some a := by
      rw [← List.head?_reverse, hs]
      rfl
    have ha : a ≠ '/' := by
      intro he
      rw [he] at hga
      unfold endsWithSep at h
      rw [hga] at h
      simp at h
    rw [List.dropWhile_cons]
    simp only [decide_eq_true_eq, ha, if_false]
    rw [← hs, List.reverse_reverse]

theorem splitSep_ne_nil (s : List Char) : splitSep s ≠ [] := by
  induction s with
  | nil => simp [splitSep]
  | cons c t ih =>
    by_cases hc : c = '/'
    · simp [splitSep, hc]
    · cases hs : splitSep t with
      | nil => simp [splitSep, hc, hs]
      | cons r rs => simp [splitSep, hc, hs]

theorem splitSep_sepfree (c : List Char) (h : sepFree c) : splitSep c = [c] := by
  induction c with
  | nil => rfl
  | cons a c' ih =>
    have ha : a ≠ '/' := h a (by simp)
    have ih' := ih (fun ch hch => h ch (by simp [hch]))
    simp [splitSep, ha, ih']

theorem splitSep_sepfree_append (c t : List Char) (h : sepFree c) :
    splitSep (c ++ '/' :: t) = c :: splitSep t := by
  induction c with
  | nil => simp [splitSep]
  | cons a c' ih =>
    have ha : a ≠ '/' := h a (by simp)
    have ih' := ih (fun ch hch => h ch (by simp [hch]))
    simp [splitSep, ha, ih']

theorem intercalateSep_cons_ex (c : List Char) (cs : List (List Char)) :
    ∃ t, intercalateSep (c :: cs) = c ++ t := by
  cases cs with
  | nil => exact ⟨[], by simp [intercalateSep]⟩
  | cons c' cs' => exact ⟨'/' :: intercalateSep (c' :: cs'), rfl⟩

theorem intercalateSep_ne_nil (comps : List (List Char)) (hne : comps ≠ [])
    (hg : ∀ c ∈ comps, c ≠ []) : intercalateSep comps ≠ [] := by
  cases comps with
  | nil => exact absurd rfl hne
  | cons c cs =>
    obtain ⟨t, ht⟩ := intercalateSep_cons_ex c cs
    rw [ht]
    have : c ≠ [] := hg c (by simp)
    cases c with
    | nil => exact absurd rfl this
    | cons a c' => simp

theorem splitSep_intercalate (comps : List (List Char)) (hne : comps ≠ [])
    (hsf : ∀ c ∈ comps, sepFree c) :
    splitSep (intercalateSep comps) = comps := by
  induction comps with
  | nil => exact absurd rfl hne
  | cons c cs ih =>
    cases cs with
    | nil => exact splitSep_sepfree c (hsf c (by simp))
    | cons c' cs' =>
      show splitSep (c ++ '/' :: intercalateSep (c' :: cs')) = _
      rw [splitSep_sepfree_append _ _ (hsf c (by simp))]
      rw [ih (by simp) (fun x hx => hsf x (by simp [hx]))]

theorem splitSep_intercalate_slash (comps : List (List Char)) (hne : comps ≠ [])
    (hsf : ∀ c ∈ comps, sepFree c) :
    splitSep (intercalateSep comps ++ ['/']) = comps ++ [[]] := by
  induction comps with
  | nil => exact absurd rfl hne
  | cons c cs ih =>
    cases cs with
    | nil =>
      show splitSep (c ++ '/' :: []) = _
      rw [splitSep_sepfree_append _ _ (hsf c (by simp))]
      rfl
    | cons c' cs' =>
      have hstep : intercalateSep (c :: c' :: cs') ++ ['/'] =
          c ++ '/' :: (intercalateSep (c' :: cs') ++ ['/']) := by
        show (c ++ '/' :: intercalateSep (c' :: cs')) ++ ['/'] = _
        simp
      rw [hstep, splitSep_sepfree_append _ _ (hsf c (by simp))]
      rw [ih (by simp) (fun x hx => hsf x (by simp [hx]))]
      rfl

theorem normStep_append (k : ℕ) (acc : List (List Char)) (c : List Char)
    (hc : c ≠ [] ∧ c ≠ ['.'] ∧ c ≠ ['.', '.']) : normStep k acc c = acc ++ [c] := by
  unfold normStep
  rw [if_neg (by simp [hc.1, hc.2.1]), if_pos (Or.inl hc.2.2)]

theorem normStep_empty (k : ℕ) (acc : List (List Char)) : normStep k acc [] = acc := by
  unfold normStep
  rw [if_pos (Or.inl rfl)]

theorem foldl_normStep (k : ℕ) (comps : List (List Char))
    (hg : ∀ c ∈ comps, c ≠ [] ∧ c ≠ ['.'] ∧ c ≠ ['.', '.']) :
    ∀ acc, List.foldl (normStep k) acc comps = acc ++ comps := by
  induction comps with
  | nil => intro acc; simp
  | cons c cs ih =>
    intro acc
    rw [List.foldl_cons, normStep_append k acc c (hg c (by simp)),
      ih (fun x hx => hg x (by simp [hx])) (acc ++ [c])]
    simp

theorem goodComp_parts {comps : List (List Char)} (hg : ∀ c ∈ comps, goodComp c) :
    (∀ c ∈ comps, c ≠ [] ∧ c ≠ ['.'] ∧ c ≠ ['.', '.']) ∧ (∀ c ∈ comps, sepFree c) := by
  constructor
  · intro c hc
    exact ⟨(hg c hc).1, (hg c hc).2.1, (hg c hc).2.2.1⟩
  · intro c hc ch hch
    exact ((hg c hc).2.2.2 ch hch).1

theorem intercalateSep_head {comps : List (List Char)} {a : Char} {c' : List Char}
    {cs : List (List Char)} (hc : comps = (a :: c') :: cs) :
    ∃ t, intercalateSep comps = a :: t := by
  subst hc
  obtain ⟨t, ht⟩ := intercalateSep_cons_ex (a :: c') cs
  exact ⟨c' ++ t, by rw [ht]; rfl⟩

theorem normpathL_name (comps : List (List Char)) (hne : comps ≠ [])
    (hg : ∀ c ∈ comps, goodComp c) :
    normpathL (intercalateSep comps) = intercalateSep comps := by
  obtain ⟨hbad, hsf⟩ := goodComp_parts hg
  obtain ⟨c, cs, rfl⟩ : ∃ c cs, comps = c :: cs := by
    cases comps with
    | nil => exact absurd rfl hne
    | cons c cs => exact ⟨c, cs, rfl⟩
  obtain ⟨a, c', rfl⟩ : ∃ a c', c = a :: c' := by
    cases c with
    | nil => exact absurd rfl (hg _ (by simp)).1
    | cons a c' => exact ⟨a, c', rfl⟩
  have ha : a ≠ '/' := ((hg (a :: c') (by simp)).2.2.2 a (by simp)).1
  obtain ⟨t, hhead⟩ := intercalateSep_head (rfl :
    ((a :: c') :: cs : List (List Char)) = (a :: c') :: cs)
  have hNne : intercalateSep ((a :: c') :: cs) ≠ [] := by rw [hhead]; simp
  have hslash : initialSlashesOf (intercalateSep ((a :: c') :: cs)) = 0 := by
    unfold initialSlashesOf
    rw [if_neg]
    rw [hhead]
    simp [ha]
  rw [normpathL, if_neg hNne]
  simp only [hslash, List.replicate_zero, List.nil_append,
    splitSep_intercalate _ (by simp) hsf, foldl_normStep _ _ hbad, if_neg hNne]

theorem normpathL_name_slash (comps : List (List Char)) (hne : comps ≠ [])
    (hg : ∀ c ∈ comps, goodComp c) :
    normpathL (intercalateSep comps ++ ['/']) = intercalateSep comps := by
  obtain ⟨hbad, hsf⟩ := goodComp_parts hg
  obtain ⟨c, cs, rfl⟩ : ∃ c cs, comps = c :: cs := by
    cases comps with
    | nil => exact absurd rfl hne
    | cons c cs => exact ⟨c, cs, rfl⟩
  obtain ⟨a, c', rfl⟩ : ∃ a c', c = a :: c' := by
    cases c with
    | nil => exact absurd rfl (hg _ (by simp)).1
    | cons a c' => exact ⟨a, c', rfl⟩
  have ha : a ≠ '/' := ((hg (a :: c') (by simp)).2.2.2 a (by simp)).1
  obtain ⟨t, hhead⟩ := intercalateSep_head (rfl :
    ((a :: c') :: cs : List (List Char)) = (a :: c') :: cs)
  have hNne : intercalateSep ((a :: c') :: cs) ≠ [] := by rw [hhead]; simp
  have hNne' : intercalateSep ((a :: c') :: cs) ++ ['/'] ≠ [] := by simp
  have hslash : initialSlashesOf (intercalateSep ((a :: c') :: cs) ++ ['/']) = 0 := by
    unfold initialSlashesOf
    rw [if_neg]
    rw [hhead]
    simp [ha]
  have hfold : ((splitSep (intercalateSep ((a :: c') :: cs) ++ ['/'])).foldl
      (normStep 0) []) = (a :: c') :: cs := by
    rw [splitSep_intercalate_slash _ (by simp) hsf]
    rw [List.foldl_append, foldl_normStep _ _ hbad, List.foldl_cons, List.foldl_nil,
      normStep_empty]
    simp
  rw [normpathL, if_neg hNne']
  simp only [hslash, List.replicate_zero, List.nil_append, hfold, if_neg hNne]

theorem endsWithSep_intercalateSep (comps : List (List Char)) (hne : comps ≠ [])
    (hg : ∀ c ∈ comps, c ≠ [] ∧ sepFree c) :
    endsWithSep (intercalateSep comps) = false := by
  induction comps with
  | nil => exact absurd rfl hne
  | cons c cs ih =>
    cases cs with
    | nil =>
      show endsWithSep c = false
      have hc := hg c (by simp)
      cases hL : c.getLast? with
      | none => simp [endsWithSep, hL]
      | some x =>
        have hx : x ≠ '/' := hc.2 x (getLast?_mem hL)
        simp [endsWithSep, hL, hx]
    | cons c' cs' =>
      show endsWithSep (c ++ '/' :: intercalateSep (c' :: cs')) = false
      rw [endsWithSep_append (by simp)]
      have hX : intercalateSep (c' :: cs') ≠ [] :=
        intercalateSep_ne_nil _ (by simp) (fun x hx => (hg x (by simp [hx])).1)
      rw [show ('/' :: intercalateSep (c' :: cs') : List Char) =
        ['/'] ++ intercalateSep (c' :: cs') from rfl]
      rw [endsWithSep_append hX]
      exact ih (by simp) (fun x hx => hg x (by simp [hx]))

/-! ## Lemmas about the glob translation -/

theorem parseGlobF_litRun (xs : List Char) :
    ∀ (ys : List Char) (f : ℕ), (∀ c ∈ xs, c ≠ '*' ∧ c ≠ '?' ∧ c ≠ '[') →
      xs.length + ys.length < f →
      parseGlobF f (xs ++ ys) = xs.map .lit ++ parseGlobF (f - xs.length) ys := by
  induction xs with
  | nil => intro ys f hm hf; simp
  | cons x xs ih =>
    intro ys f hm hf
    cases f with
    | zero => omega
    | succ k =>
      have hx := hm x (by simp)
      simp only [List.cons_append, parseGlobF]
      rw [if_neg hx.1, if_neg hx.2.1, if_neg hx.2.2]
      simp only [List.append_eq]
      rw [ih ys k (fun c hc => hm c (by simp [hc]))
        (by simp only [List.length_cons] at hf; omega)]
      simp [Nat.succ_sub_succ]

theorem parseGlobF_dir_tail (f : ℕ) (h : 3 < f) :
    parseGlobF f ['/', '*', '/'] = [.lit '/', .star, .lit '/'] := by
  obtain ⟨k, rfl⟩ : ∃ k, f = k + 4 := ⟨f - 4, by omega⟩
  rfl

theorem parseGlobF_all_tail (f : ℕ) (h : 2 < f) :
    parseGlobF f ['/', '*'] = [.lit '/', .star] := by
  obtain ⟨k, rfl⟩ : ∃ k, f = k + 3 := ⟨f - 3, by omega⟩
  rfl

theorem mem_intercalateSep {comps : List (List Char)} {ch : Char}
    (h : ch ∈ intercalateSep comps) : ch = '/' ∨ ∃ c ∈ comps, ch ∈ c := by
  induction comps with
  | nil => simp [intercalateSep] at h
  | cons c cs ih =>
    cases cs with
    | nil => exact Or.inr ⟨c, by simp, h⟩
    | cons c' cs' =>
      rw [show intercalateSep (c :: c' :: cs') = c ++ '/' :: intercalateSep (c' :: cs')
        from rfl] at h
      rcases List.mem_append.mp h with hc | hc
      · exact Or.inr ⟨c, by simp, hc⟩
      · rcases List.mem_cons.mp hc with rfl | hc
        · exact Or.inl rfl
        · rcases ih hc with h1 | ⟨d, hd, hchd⟩
          · exact Or.inl h1
          · exact Or.inr ⟨d, by simp [hd], hchd⟩

theorem prepare_pattern_eq (pattern : String) :
    prepare_pattern pattern =
      parseGlob (lstripSep (if endsWithSep pattern.data = true
        then rstripSep (normpathL pattern.data) ++ ['/', '*', '/']
        else normpathL pattern.data ++ ['/', '*'])) := rfl

theorem prepare_pattern_name_slash (comps : List (List Char)) (hne : comps ≠ [])
    (hg : ∀ c ∈ comps, goodComp c) :
    prepare_pattern ⟨intercalateSep comps ++ ['/']⟩ =
      (intercalateSep comps).map .lit ++ [.lit '/', .star, .lit '/'] := by
  have hEndsName : endsWithSep (intercalateSep comps) = false :=
    endsWithSep_intercalateSep comps hne
      (fun c hc => ⟨(hg c hc).1, fun ch hch => ((hg c hc).2.2.2 ch hch).1⟩)
  have hEnds : endsWithSep (intercalateSep comps ++ ['/']) = true :=
    endsWithSep_append_slash _
  have hnorm := normpathL_name_slash comps hne hg
  have hrstrip : rstripSep (intercalateSep comps) = intercalateSep comps :=
    rstripSep_eq_self hEndsName
  obtain ⟨c, cs, hcs⟩ : ∃ c cs, comps = c :: cs := by
    cases comps with
    | nil => exact absurd rfl hne
    | cons c cs => exact ⟨c, cs, rfl⟩
  obtain ⟨a, c', hc⟩ : ∃ a c', c = a :: c' := by
    cases c with
    | nil => exact absurd rfl (hg [] (by simp [hcs])).1
    | cons a c' => exact ⟨a, c', rfl⟩
  have ha : a ≠ '/' :=
    ((hg (a :: c') (by simp [hcs, hc])).2.2.2 a (by simp)).1
  obtain ⟨t, hhead⟩ : ∃ t, intercalateSep comps = a :: t := by
    subst hcs hc
    exact intercalateSep_head rfl
  have hlstrip : lstripSep (intercalateSep comps ++ ['/', '*', '/']) =
      intercalateSep comps ++ ['/', '*', '/'] := by
    rw [hhead]
    simp only [List.cons_append]
    exact lstripSep_cons_ne _ ha
  have hmeta : ∀ ch ∈ intercalateSep comps, ch ≠ '*' ∧ ch ≠ '?' ∧ ch ≠ '[' := by
    intro ch hch
    rcases mem_intercalateSep hch with rfl | ⟨d, hd, hchd⟩
    · exact ⟨by decide, by decide, by decide⟩
    · have h3 := (hg d hd).2.2.2 ch hchd
      exact ⟨h3.2.1, h3.2.2.1, h3.2.2.2⟩
  have hparse : parseGlob (intercalateSep comps ++ ['/', '*', '/']) =
      (intercalateSep comps).map .lit ++ [.lit '/', .star, .lit '/'] := by
    unfold parseGlob
    rw [parseGlobF_litRun (intercalateSep comps) ['/', '*', '/'] _ hmeta
      (by simp [List.length_append])]
    congr 1
    exact parseGlobF_dir_tail _ (by simp only [List.length_append, List.length_cons, List.length_nil]; omega)
  rw [prepare_pattern_eq]
  rw [show (⟨intercalateSep comps ++ ['/']⟩ : String).data =
    intercalateSep comps ++ ['/'] from rfl]
  rw [if_pos hEnds, hnorm, hrstrip, hlstrip, hparse]

theorem prepare_pattern_name (comps : List (List Char)) (hne : comps ≠ [])
    (hg : ∀ c ∈ comps, goodComp c) :
    prepare_pattern ⟨intercalateSep comps⟩ =
      (intercalateSep comps).map .lit ++ [.lit '/', .star] := by
  have hEndsName : endsWithSep (intercalateSep comps) = false :=
    endsWithSep_intercalateSep comps hne
      (fun c hc => ⟨(hg c hc).1, fun ch hch => ((hg c hc).2.2.2 ch hch).1⟩)
  have hnorm := normpathL_name comps hne hg
  obtain ⟨c, cs, hcs⟩ : ∃ c cs, comps = c :: cs := by
    cases comps with
    | nil => exact absurd rfl hne
    | cons c cs => exact ⟨c, cs, rfl⟩
  obtain ⟨a, c', hc⟩ : ∃ a c', c = a :: c' := by
    cases c with
    | nil => exact absurd rfl (hg [] (by simp [hcs])).1
    | cons a c' => exact ⟨a, c', rfl⟩
  have ha : a ≠ '/' :=
    ((hg (a :: c') (by simp [hcs, hc])).2.2.2 a (by simp)).1
  obtain ⟨t, hhead⟩ : ∃ t, intercalateSep comps = a :: t := by
    subst hcs hc
    exact intercalateSep_head rfl
  have hlstrip : lstripSep (intercalateSep comps ++ ['/', '*']) =
      intercalateSep comps ++ ['/', '*'] := by
    rw [hhead]
    simp only [List.cons_append]
    exact lstripSep_cons_ne _ ha
  have hmeta : ∀ ch ∈ intercalateSep comps, ch ≠ '*' ∧ ch ≠ '?' ∧ ch ≠ '[' := by
    intro ch hch
    rcases mem_intercalateSep hch with rfl | ⟨d, hd, hchd⟩
    · exact ⟨by decide, by decide, by decide⟩
    · have h3 := (hg d hd).2.2.2 ch hchd
      exact ⟨h3.2.1, h3.2.2.1, h3.2.2.2⟩
  have hparse : parseGlob (intercalateSep comps ++ ['/', '*']) =
      (intercalateSep comps).map .lit ++ [.lit '/', .star] := by
    unfold parseGlob
    rw [parseGlobF_litRun (intercalateSep comps) ['/', '*'] _ hmeta
      (by simp [List.length_append])]
    congr 1
    exact parseGlobF_all_tail _ (by simp only [List.length_append, List.length_cons, List.length_nil]; omega)
  rw [prepare_pattern_eq]
  rw [show (⟨intercalateSep comps⟩ : String).data = intercalateSep comps from rfl]
  rw [if_neg (by rw [hEndsName]; exact Bool.false_ne_true), hnorm, hlstrip, hparse]

/-! ## Lemmas about the scan -/

theorem mem_setAdd {i n : ℕ} {l : List ℕ} : i ∈ setAdd n l ↔ i = n ∨ i ∈ l := by
  unfold setAdd
  by_cases h : n ∈ l
  · rw [if_pos h]
    constructor
    · exact Or.inr
    · rintro (rfl | hi)
      · exact h
      · exact hi
  · rw [if_neg h]
    exact List.mem_cons

theorem processFile_link (cpats : List (List GlobTok)) (dirPath : String)
    (st : ScanState) (name : String) (stat : StatRes) :
    processFile cpats dirPath st ⟨name, true, stat⟩ = .ok st := rfl

theorem processFile_notFound (cpats : List (List GlobTok)) (dirPath : String)
    (st : ScanState) (name : String) :
    processFile cpats dirPath st ⟨name, false, .notFound⟩ = .ok st := rfl

theorem processFile_permDenied (cpats : List (List GlobTok)) (dirPath : String)
    (st : ScanState) (name : String) :
    processFile cpats dirPath st ⟨name, false, .permDenied⟩ = .ok st := rfl

theorem processFile_otherErr (cpats : List (List GlobTok)) (dirPath : String)
    (st : ScanState) (name : String) :
    processFile cpats dirPath st ⟨name, false, .otherErr⟩ = .error () := rfl

theorem processFile_ok_stat (cpats : List (List GlobTok)) (dirPath : String)
    (st : ScanState) (name : String) (ino dev sz : ℕ) :
    processFile cpats dirPath st ⟨name, false, .ok ino dev sz⟩ =
      .ok (if ino ∈ st.seen then st
        else ⟨(if anyMatch cpats (osJoin dirPath name) = true then st.dataSize
                else st.dataSize + sz),
              setAdd ino st.seen,
              (if anyMatch cpats (osJoin dirPath name) = true then st.seenFiltered
                else setAdd ino st.seenFiltered)⟩) := rfl

theorem Pres_refl (st : ScanState) : Pres st st :=
  ⟨fun _ hi => hi, fun _ _ hni => hni⟩

theorem Pres_trans {a b c : ScanState} (h1 : Pres a b) (h2 : Pres b c) : Pres a c :=
  ⟨fun i hi => h2.1 i (h1.1 i hi),
   fun i hi hni => h2.2 i (h1.1 i hi) (h1.2 i hi hni)⟩

theorem processFile_pres (cpats : List (List GlobTok)) (dirPath : String)
    (st : ScanState) (f : FileEntry) (st' : ScanState)
    (h : processFile cpats dirPath st f = .ok st') : Pres st st' := by
  obtain ⟨name, isLink, stat⟩ := f
  cases isLink with
  | true =>
    rw [processFile_link] at h
    injection h with h'
    subst h'
    exact Pres_refl st
  | false =>
    cases stat with
    | ok ino dev sz =>
      rw [processFile_ok_stat] at h
      injection h with h'
      subst h'
      by_cases hs : ino ∈ st.seen
      · rw [if_pos hs]
        exact Pres_refl st
      · rw [if_neg hs]
        constructor
        · intro i hi
          show i ∈ setAdd ino st.seen
          exact mem_setAdd.mpr (Or.inr hi)
        · intro i hi hni
          show i ∉ (if anyMatch cpats (osJoin dirPath name) = true then st.seenFiltered
            else setAdd ino st.seenFiltered)
          by_cases hex : anyMatch cpats (osJoin dirPath name) = true
          · rw [if_pos hex]
            exact hni
          · rw [if_neg hex]
            intro hmem
            rcases mem_setAdd.mp hmem with rfl | hmem2
            · exact hs hi
            · exact hni hmem2
    | notFound =>
      rw [processFile_notFound] at h
      injection h with h'
      subst h'
      exact Pres_refl st
    | permDenied =>
      rw [processFile_permDenied] at h
      injection h with h'
      subst h'
      exact Pres_refl st
    | otherErr =>
      rw [processFile_otherErr] at h
      exact absurd h (by simp)

theorem processFiles_pres (cpats : List (List GlobTok)) (dirPath : String) :
    ∀ (files : List FileEntry) (st st' : ScanState),
      processFiles cpats dirPath files st = .ok st' → Pres st st' := by
  intro files
  induction files with
  | nil =>
    intro st st' h
    injection h with h'
    subst h'
    exact Pres_refl st
  | cons f rest ih =>
    intro st st' h
    unfold processFiles at h
    cases hv : processFile cpats dirPath st f with
    | error e =>
      rw [hv] at h
      exact absurd h (by simp)
    | ok st1 =>
      rw [hv] at h
      exact Pres_trans (processFile_pres _ _ _ _ _ hv) (ih st1 st' h)

mutual
theorem walkDir_pres (cpats : List (List GlobTok)) (dirPath : String) (d : Dir)
    (st st' : ScanState) (h : walkDir cpats dirPath d st = .ok st') : Pres st st' := by
  cases d with
  | mk files subdirs =>
    unfold walkDir at h
    by_cases he : anyMatch cpats dirPath = true
    · rw [if_pos he] at h
      injection h with h'
      subst h'
      exact Pres_refl st
    · rw [if_neg he] at h
      cases hp : processFiles cpats dirPath files st with
      | error e =>
        rw [hp] at h
        exact absurd h (by simp)
      | ok st1 =>
        rw [hp] at h
        exact Pres_trans (processFiles_pres _ _ _ _ _ hp)
          (walkSubdirs_pres cpats dirPath subdirs st1 st' h)
theorem walkSubdirs_pres (cpats : List (List GlobTok)) (dirPath : String)
    (s : SubdirList) (st st' : ScanState)
    (h : walkSubdirs cpats dirPath s st = .ok st') : Pres st st' := by
  cases s with
  | nil =>
    unfold walkSubdirs at h
    injection h with h'
    subst h'
    exact Pres_refl st
  | cons name isLink d rest =>
    unfold walkSubdirs at h
    cases isLink with
    | true =>
      rw [if_pos rfl] at h
      exact walkSubdirs_pres cpats dirPath rest st st' h
    | false =>
      rw [if_neg Bool.false_ne_true] at h
      cases hw : walkDir cpats (osJoin dirPath name) d st with
      | error e =>
        rw [hw] at h
        exact absurd h (by simp)
      | ok st1 =>
        rw [hw] at h
        exact Pres_trans (walkDir_pres _ _ _ _ _ hw)
          (walkSubdirs_pres cpats dirPath rest st1 st' h)
end

theorem anyMatch_perm {cp cp' : List (List GlobTok)} (h : cp.Perm cp') (path : String) :
    anyMatch cp path = anyMatch cp' path := by
  unfold anyMatch
  refine Bool.eq_iff_iff.mpr ?_
  simp only [List.any_eq_true]
  constructor
  · rintro ⟨x, hx, hm⟩
    exact ⟨x, h.mem_iff.mp hx, hm⟩
  · rintro ⟨x, hx, hm⟩
    exact ⟨x, h.mem_iff.mpr hx, hm⟩

theorem processFile_congr {cp cp' : List (List GlobTok)}
    (hc : ∀ path, anyMatch cp path = anyMatch cp' path) (dirPath : String)
    (st : ScanState) (f : FileEntry) :
    processFile cp dirPath st f = processFile cp' dirPath st f := by
  unfold processFile
  simp only [hc]

theorem processFiles_congr {cp cp' : List (List GlobTok)}
    (hc : ∀ path, anyMatch cp path = anyMatch cp' path) (dirPath : String) :
    ∀ (files : List FileEntry) (st : ScanState),
      processFiles cp dirPath files st = processFiles cp' dirPath files st := by
  intro files
  induction files with
  | nil => intro st; rfl
  | cons f rest ih =>
    intro st
    unfold processFiles
    rw [processFile_congr hc]
    cases hv : processFile cp' dirPath st f with
    | error e => rfl
    | ok st1 => exact ih st1

mutual
theorem walkDir_congr {cp cp' : List (List GlobTok)}
    (hc : ∀ path, anyMatch cp path = anyMatch cp' path) (dirPath : String) (d : Dir)
    (st : ScanState) : walkDir cp dirPath d st = walkDir cp' dirPath d st := by
  cases d with
  | mk files subdirs =>
    unfold walkDir
    rw [hc dirPath, processFiles_congr hc]
    by_cases he : anyMatch cp' dirPath = true
    · rw [if_pos he, if_pos he]
    · rw [if_neg he, if_neg he]
      cases hv : processFiles cp' dirPath files st with
      | error e => rfl
      | ok st1 => exact walkSubdirs_congr hc dirPath subdirs st1
theorem walkSubdirs_congr {cp cp' : List (List GlobTok)}
    (hc : ∀ path, anyMatch cp path = anyMatch cp' path) (dirPath : String)
    (s : SubdirList) (st : ScanState) :
    walkSubdirs cp dirPath s st = walkSubdirs cp' dirPath s st := by
  cases s with
  | nil => rfl
  | cons name isLink d rest =>
    unfold walkSubdirs
    cases isLink with
    | true =>
      rw [if_pos rfl, if_pos rfl]
      exact walkSubdirs_congr hc dirPath rest st
    | false =>
      rw [if_neg Bool.false_ne_true, if_neg Bool.false_ne_true]
      rw [walkDir_congr hc]
      cases hv : walkDir cp' (osJoin dirPath name) d st with
      | error e => rfl
      | ok st1 => exact walkSubdirs_congr hc dirPath rest st1
end

/-! ## Lemmas about the pretty_bytes loop -/

theorem scaleLoopF_lt (metric : Bool) (prec : ℤ) (uLen : ℕ) :
    ∀ (fuel : ℕ) (size : PyNum) (n : ℕ), n < uLen →
      (scaleLoopF metric prec uLen fuel size n).2 < uLen := by
  intro fuel
  induction fuel with
  | zero => intro size n h; exact h
  | succ k ih =>
    intro size n h
    unfold scaleLoopF
    by_cases hc : absGePow (pyRound size prec) (if metric then 1000 else 1024) = true ∧
      n + 1 < uLen
    · rw [if_pos hc]
      exact ih _ _ hc.2
    · rw [if_neg hc]
      exact h

/-! ## The claims -/

/-- C1, counterexample: scanning "root" over the example tree with the single
exclude pattern "b/" does not return (100, 1).  The compiled pattern is
anchored at the start of the matched string, and every walked path starts
with "root", so nothing is excluded. -/
theorem c1_scan_example_counterexample :
    get_directory_size "root" c1Tree ["b/"] ≠ Except.ok (100, 1) := by
  intro h
  rw [show get_directory_size "root" c1Tree ["b/"] = Except.ok (350, 3) from rfl] at h
  simp at h

/-- C1, amended: for the example file tree root containing a.txt of size 100
and b with c.txt of size 200 and d.txt of size 50, scanning "root" with the
single exclude pattern "root/b/" (the path of the excluded directory as seen
during the walk) returns total_size_bytes 100 and file_count 1; with the raw
pattern "b/" nothing matches the walked paths and the scan returns
(350, 3). -/
theorem c1_scan_example_amended :
    get_directory_size "root" c1Tree ["root/b/"] = Except.ok (100, 1) ∧
    get_directory_size "root" c1Tree ["b/"] = Except.ok (350, 3) :=
  ⟨rfl, rfl⟩

/-- C2: when the first-encountered name of an inode is a non-symlink file
whose path matches an exclude pattern, the step leaves total and counted set
unchanged while marking the inode seen; any further walking keeps a
seen-but-uncounted inode seen and uncounted, so the inode contributes nothing
to the final totals; and processing a later hardlinked alias of an
already-seen inode, excluded or not, leaves the state entirely unchanged. -/
theorem c2_first_seen_excluded_suppresses :
    (∀ (cpats : List (List GlobTok)) (dirPath : String) (st : ScanState)
      (name : String) (ino dev sz : ℕ),
      anyMatch cpats (osJoin dirPath name) = true → ino ∉ st.seen →
      processFile cpats dirPath st ⟨name, false, .ok ino dev sz⟩ =
        .ok ⟨st.dataSize, ino :: st.seen, st.seenFiltered⟩) ∧
    (∀ (cpats : List (List GlobTok)) (dirPath : String) (d : Dir)
      (st st' : ScanState), walkDir cpats dirPath d st = .ok st' →
      ∀ i, i ∈ st.seen → i ∉ st.seenFiltered →
        i ∈ st'.seen ∧ i ∉ st'.seenFiltered) ∧
    (∀ (cpats : List (List GlobTok)) (dirPath : String) (st : ScanState)
      (name : String) (ino dev sz : ℕ), ino ∈ st.seen →
      processFile cpats dirPath st ⟨name, false, .ok ino dev sz⟩ = .ok st) := by
  refine ⟨?_, ?_, ?_⟩
  · intro cpats dirPath st name ino dev sz hex hnew
    rw [processFile_ok_stat, if_neg hnew, if_pos hex, if_pos hex]
    simp only [setAdd]
    rw [if_neg hnew]
  · intro cpats dirPath d st st' h i hin hnotf
    have hp := walkDir_pres cpats dirPath d st st' h
    exact ⟨hp.1 i hin, hp.2 i hin hnotf⟩
  · intro cpats dirPath st name ino dev sz hseen
    rw [processFile_ok_stat, if_pos hseen]

/-- Witness for C2: a concrete excluded first encounter of inode 7 marks it
seen without counting it, a concrete walk keeps it seen and uncounted, and a
concrete later alias of inode 7 is a no-op. -/
theorem c2_first_seen_excluded_suppresses_witness :
    processFile [prepare_pattern "a/"] "a" ⟨0, [], []⟩ ⟨"x", false, .ok 7 1 50⟩ =
      .ok ⟨0, [7], []⟩ ∧
    (7 ∈ (⟨0, [7], []⟩ : ScanState).seen ∧
      7 ∉ (⟨0, [7], []⟩ : ScanState).seenFiltered) ∧
    processFile [prepare_pattern "a/"] "a" ⟨0, [7], []⟩ ⟨"y", false, .ok 7 1 50⟩ =
      .ok ⟨0, [7], []⟩ := by
  refine ⟨?_, ?_, ?_⟩
  · exact c2_first_seen_excluded_suppresses.1 [prepare_pattern "a/"] "a" ⟨0, [], []⟩
      "x" 7 1 50 (by decide) (by decide)
  · exact c2_first_seen_excluded_suppresses.2.1 [] "r" (.mk [] .nil)
      ⟨0, [7], []⟩ ⟨0, [7], []⟩ rfl 7 (by decide) (by decide)
  · exact c2_first_seen_excluded_suppresses.2.2 [prepare_pattern "a/"] "a"
      ⟨0, [7], []⟩ "y" 7 1 50 (by decide)

/-- C3: a physical file is counted at most once: a second encounter of an
already-seen inode changes nothing, every successfully processed regular file
leaves its inode in the seen set, the seen set only grows along the walk, and
the hardlink example tree with a.txt and link_to_a.txt sharing inode 5 yields
total_size_bytes 100 and file_count 1 with no excludes. -/
theorem c3_counted_at_most_once :
    (∀ (cpats : List (List GlobTok)) (dirPath : String) (st : ScanState)
      (name : String) (ino dev sz : ℕ), ino ∈ st.seen →
      processFile cpats dirPath st ⟨name, false, .ok ino dev sz⟩ = .ok st) ∧
    (∀ (cpats : List (List GlobTok)) (dirPath : String) (st : ScanState)
      (name : String) (ino dev sz : ℕ) (st' : ScanState),
      processFile cpats dirPath st ⟨name, false, .ok ino dev sz⟩ = .ok st' →
      ino ∈ st'.seen) ∧
    (∀ (cpats : List (List GlobTok)) (dirPath : String) (d : Dir)
      (st st' : ScanState), walkDir cpats dirPath d st = .ok st' →
      ∀ i ∈ st.seen, i ∈ st'.seen) ∧
    get_directory_size "root" c3Tree [] = Except.ok (100, 1) := by
  refine ⟨?_, ?_, ?_, rfl⟩
  · intro cpats dirPath st name ino dev sz hseen
    rw [processFile_ok_stat, if_pos hseen]
  · intro cpats dirPath st name ino dev sz st' h
    rw [processFile_ok_stat] at h
    injection h with h'
    subst h'
    by_cases hs : ino ∈ st.seen
    · rw [if_pos hs]
      exact hs
    · rw [if_neg hs]
      show ino ∈ setAdd ino st.seen
      exact mem_setAdd.mpr (Or.inl rfl)
  · intro cpats dirPath d st st' h i hi
    exact (walkDir_pres cpats dirPath d st st' h).1 i hi

/-- Witness for C3: a concrete second encounter of inode 7 is a no-op, and
the hardlink example evaluates to (100, 1). -/
theorem c3_counted_at_most_once_witness :
    processFile [] "r" ⟨5, [7], [7]⟩ ⟨"x", false, .ok 7 1 40⟩ = .ok ⟨5, [7], [7]⟩ ∧
    get_directory_size "root" c3Tree [] = Except.ok (100, 1) :=
  ⟨c3_counted_at_most_once.1 [] "r" ⟨5, [7], [7]⟩ "x" 7 1 40 (by decide),
   c3_counted_at_most_once.2.2.2⟩

/-- C5: permuting the exclude-pattern list never changes the scan result:
exclusion is whether at least one compiled pattern matches, independent of
pattern order. -/
theorem c5_pattern_order_irrelevant (dirPath : String) (root : Dir)
    (pats pats' : List String) (h : pats.Perm pats') :
    get_directory_size dirPath root pats' = get_directory_size dirPath root pats := by
  simp only [get_directory_size]
  have hc : ∀ path, anyMatch (pats'.map prepare_pattern) path =
      anyMatch (pats.map prepare_pattern) path :=
    fun path => anyMatch_perm ((h.map prepare_pattern).symm) path
  rw [walkDir_congr hc]

/-- Witness for C5: swapping two concrete patterns leaves the result of a
concrete scan unchanged. -/
theorem c5_pattern_order_irrelevant_witness :
    get_directory_size "root" c1Tree ["root/b/", "a"] =
      get_directory_size "root" c1Tree ["a", "root/b/"] :=
  c5_pattern_order_irrelevant "root" c1Tree ["a", "root/b/"] ["root/b/", "a"]
    (by decide)

/-- C6: a symbolic link never contributes: a symlink file entry is skipped
with the whole state unchanged, for every pattern list and every stat outcome
including the error classes, so it is dropped before exclusion testing, stat
and hardlink bookkeeping; and a symlinked directory entry is never walked
into. -/
theorem c6_symlinks_never_counted :
    (∀ (cpats : List (List GlobTok)) (dirPath : String) (st : ScanState)
      (name : String) (stat : StatRes),
      processFile cpats dirPath st ⟨name, true, stat⟩ = .ok st) ∧
    (∀ (cpats : List (List GlobTok)) (dirPath : String) (name : String)
      (d : Dir) (rest : SubdirList) (st : ScanState),
      walkSubdirs cpats dirPath (.cons name true d rest) st =
        walkSubdirs cpats dirPath rest st) := by
  constructor
  · intro cpats dirPath st name stat
    rfl
  · intro cpats dirPath name d rest st
    rfl

/-- C7: a stat failure of class file-not-found or permission-denied on a
single file is a silent no-op and the loop continues with the remaining
files; any other stat error class becomes an error of the whole scan, as the
concrete tree with an otherErr file shows. -/
theorem c7_stat_error_classes :
    (∀ (cpats : List (List GlobTok)) (dirPath : String) (st : ScanState)
      (name : String),
      processFile cpats dirPath st ⟨name, false, .notFound⟩ = .ok st) ∧
    (∀ (cpats : List (List GlobTok)) (dirPath : String) (st : ScanState)
      (name : String),
      processFile cpats dirPath st ⟨name, false, .permDenied⟩ = .ok st) ∧
    (∀ (cpats : List (List GlobTok)) (dirPath : String) (name : String)
      (rest : List FileEntry) (st : ScanState),
      processFiles cpats dirPath (⟨name, false, .notFound⟩ :: rest) st =
        processFiles cpats dirPath rest st) ∧
    (∀ (cpats : List (List GlobTok)) (dirPath : String) (name : String)
      (rest : List FileEntry) (st : ScanState),
      processFiles cpats dirPath (⟨name, false, .permDenied⟩ :: rest) st =
        processFiles cpats dirPath rest st) ∧
    (∀ (cpats : List (List GlobTok)) (dirPath : String) (st : ScanState)
      (name : String),
      processFile cpats dirPath st ⟨name, false, .otherErr⟩ = .error ()) ∧
    (∀ (cpats : List (List GlobTok)) (dirPath : String) (name : String)
      (rest : List FileEntry) (st : ScanState),
      processFiles cpats dirPath (⟨name, false, .otherErr⟩ :: rest) st =
        .error ()) ∧
    get_directory_size "root" c7Tree [] = .error () :=
  ⟨fun _ _ _ _ => rfl, fun _ _ _ _ => rfl, fun _ _ _ _ _ => rfl,
   fun _ _ _ _ _ => rfl, fun _ _ _ _ => rfl, fun _ _ _ _ _ => rfl, rfl⟩

/-- C9: deduplication uses the inode number alone: the per-file step does not
depend on the device identifier of a stat result, and scanning two files on
different devices that share inode 7 counts only the first, returning
(100, 1). -/
theorem c9_dedup_ignores_device :
    (∀ (cpats : List (List GlobTok)) (dirPath : String) (st : ScanState)
      (name : String) (ino dev1 dev2 sz : ℕ),
      processFile cpats dirPath st ⟨name, false, .ok ino dev1 sz⟩ =
        processFile cpats dirPath st ⟨name, false, .ok ino dev2 sz⟩) ∧
    get_directory_size "root" c9Tree [] = Except.ok (100, 1) :=
  ⟨fun _ _ _ _ _ _ _ _ => rfl, rfl⟩

/-- C4, counterexample: the raw pattern "/" ends with the path separator and
names the filesystem root, yet its compiled matcher does match the named
own path "/" of the named directory, so the claim fails for this raw pattern. -/
theorem c4_trailing_sep_counterexample :
    matchPattern (prepare_pattern "/") "/" = true := by decide

/-- C4, amended: for every raw pattern naming a directory through a nonempty
sequence of literal path components (each nonempty, not dot or dot-dot, free
of separators and of glob metacharacters): with a trailing separator the
compiled matcher matches every path strictly below the named directory but
not the named path itself; without a trailing separator it matches the named
path itself and every path below it (matching strips leading separators from
the candidate and appends one separator, full-string anchored). -/
theorem c4_trailing_sep_amended (comps : List (List Char)) (hne : comps ≠ [])
    (hg : ∀ c ∈ comps, goodComp c) :
    (∀ rest : List Char,
      matchPattern (prepare_pattern ⟨intercalateSep comps ++ ['/']⟩)
        ⟨intercalateSep comps ++ '/' :: rest⟩ = true) ∧
    matchPattern (prepare_pattern ⟨intercalateSep comps ++ ['/']⟩)
      ⟨intercalateSep comps⟩ = false ∧
    matchPattern (prepare_pattern ⟨intercalateSep comps⟩)
      ⟨intercalateSep comps⟩ = true ∧
    (∀ rest : List Char,
      matchPattern (prepare_pattern ⟨intercalateSep comps⟩)
        ⟨intercalateSep comps ++ '/' :: rest⟩ = true) := by
  have hps := prepare_pattern_name_slash comps hne hg
  have hp := prepare_pattern_name comps hne hg
  obtain ⟨c, cs, hcs⟩ : ∃ c cs, comps = c :: cs := by
    cases comps with
    | nil => exact absurd rfl hne
    | cons c cs => exact ⟨c, cs, rfl⟩
  obtain ⟨a, c', hc⟩ : ∃ a c', c = a :: c' := by
    cases c with
    | nil => exact absurd rfl (hg [] (by simp [hcs])).1
    | cons a c' => exact ⟨a, c', rfl⟩
  have ha : a ≠ '/' :=
    ((hg (a :: c') (by simp [hcs, hc])).2.2.2 a (by simp)).1
  obtain ⟨t, hhead⟩ : ∃ t, intercalateSep comps = a :: t := by
    subst hcs hc
    exact intercalateSep_head rfl
  have hl0 : lstripSep (intercalateSep comps) = intercalateSep comps := by
    rw [hhead]
    exact lstripSep_cons_ne _ ha
  have hl1 : ∀ X : List Char,
      lstripSep (intercalateSep comps ++ X) = intercalateSep comps ++ X := by
    intro X
    rw [hhead]
    simp only [List.cons_append]
    exact lstripSep_cons_ne _ ha
  refine ⟨?_, ?_, ?_, ?_⟩
  · intro rest
    unfold matchPattern
    rw [show (⟨intercalateSep comps ++ '/' :: rest⟩ : String).data =
      intercalateSep comps ++ '/' :: rest from rfl]
    rw [hps, hl1 ('/' :: rest), List.append_assoc]
    rw [show (('/' :: rest) ++ ['/'] : List Char) = '/' :: (rest ++ ['/']) from rfl]
    rw [tokMatch_lits, tokMatch_lit, tokMatch_star_slash]
    simp
  · unfold matchPattern
    rw [show (⟨intercalateSep comps⟩ : String).data = intercalateSep comps from rfl]
    rw [hps, hl0, tokMatch_lits, tokMatch_lit, tokMatch_star_nil, tokMatch_lit_nil]
    simp
  · unfold matchPattern
    rw [show (⟨intercalateSep comps⟩ : String).data = intercalateSep comps from rfl]
    rw [hp, hl0, tokMatch_lits, tokMatch_lit, tokMatch_star_nil, tokMatch_nil]
    simp
  · intro rest
    unfold matchPattern
    rw [show (⟨intercalateSep comps ++ '/' :: rest⟩ : String).data =
      intercalateSep comps ++ '/' :: rest from rfl]
    rw [hp, hl1 ('/' :: rest), List.append_assoc]
    rw [show (('/' :: rest) ++ ['/'] : List Char) = '/' :: (rest ++ ['/']) from rfl]
    rw [tokMatch_lits, tokMatch_lit, tokMatch_star_any]
    simp

/-- Witness for the amended C4 at the concrete pattern a/b: the trailing-sep
pattern matches the descendant a/b/c and not a/b itself, and the bare
pattern matches both a/b and a/b/c. -/
theorem c4_trailing_sep_amended_witness :
    matchPattern (prepare_pattern ⟨intercalateSep [['a'], ['b']] ++ ['/']⟩)
      ⟨intercalateSep [['a'], ['b']] ++ '/' :: ['c']⟩ = true ∧
    matchPattern (prepare_pattern ⟨intercalateSep [['a'], ['b']] ++ ['/']⟩)
      ⟨intercalateSep [['a'], ['b']]⟩ = false ∧
    matchPattern (prepare_pattern ⟨intercalateSep [['a'], ['b']]⟩)
      ⟨intercalateSep [['a'], ['b']]⟩ = true ∧
    matchPattern (prepare_pattern ⟨intercalateSep [['a'], ['b']]⟩)
      ⟨intercalateSep [['a'], ['b']] ++ '/' :: ['c']⟩ = true := by
  have h := c4_trailing_sep_amended [['a'], ['b']] (by decide) (by decide)
  exact ⟨h.1 ['c'], h.2.1, h.2.2.1, h.2.2.2 ['c']⟩

/-- C8: pretty_bytes formats 1500 metric bytes as "1.5 KB" and 1536 binary
bytes as "1.5 KiB", and returns the empty string for every non-integer input,
in particular for the float 3.14. -/
theorem c8_pretty_bytes_examples :
    pretty_bytes (.int 1500) true false 1 = "1.5 KB" ∧
    pretty_bytes (.int 1536) false false 1 = "1.5 KiB" ∧
    pretty_bytes (.dec 314 2) true false 1 = "" ∧
    (∀ (k : ℤ) (p : ℕ) (metric sign : Bool) (precision : ℤ),
      pretty_bytes (.dec k p) metric sign precision = "") :=
  ⟨by decide, by decide, rfl, fun _ _ _ _ _ => rfl⟩

/-- C10: for every integer size and every choice of metric, sign and
precision, the scaling loop of pretty_bytes ends with an index strictly below
the length of the unit table, the unit lookup succeeds, and the function
returns through the normal formatting branch, never the "NaN" fallback. -/
theorem c10_unit_lookup_always_succeeds (z : ℤ) (metric sign : Bool)
    (precision : ℤ) :
    (scaleLoopF metric precision (unitsFor metric).length (unitsFor metric).length
      (.int z) 0).2 < (unitsFor metric).length ∧
    ∃ u, (unitsFor metric)[(scaleLoopF metric precision (unitsFor metric).length
        (unitsFor metric).length (.int z) 0).2]? = some u ∧
      pretty_bytes (.int z) metric sign precision =
        (if sign ∧ 0 < z then "+" else "") ++
          fmtNum (pyRound (scaleLoopF metric precision (unitsFor metric).length
            (unitsFor metric).length (.int z) 0).1 precision) ++ " " ++ u ++ "B" := by
  have h0 : 0 < (unitsFor metric).length := by cases metric <;> decide
  have hlt := scaleLoopF_lt metric precision (unitsFor metric).length
    (unitsFor metric).length (.int z) 0 h0
  refine ⟨hlt, (unitsFor metric)[(scaleLoopF metric precision (unitsFor metric).length
    (unitsFor metric).length (.int z) 0).2], List.getElem?_eq_getElem hlt, ?_⟩
  simp only [pretty_bytes]
  rw [List.getElem?_eq_getElem hlt]
